import Mathlib

/-!
A shallow embedding of `hugepages_preload.c`, the huge-page shim.

The shim is an `LD_PRELOAD` library with three pieces of logic:

* `parse_humanreadable` turns `2M`, `1G`, `4096` into a byte count;
* `sysconf_patch_initialize` (the load-time constructor) scans the mount table for the
  configured huge-page mount and stores its page size;
* the exported hooks `sysconf`, `fopen` and `fopen64`, the latter two serving a rewritten
  copy of `/proc/meminfo` produced by `rewrite_meminfo`.

C strings are lists of characters without the terminating NUL; a character stands for one
byte. Integers of type `uintmax_t`, `size_t` and `unsigned long` are 64 bits wide (the LP64
ABI of the Linux targets the shim is built for, which its `%lu` conversions of `uintmax_t`
values assume) and are natural numbers reduced modulo `2 ^ 64` where an operation can leave
that range. The C library is not part of the repository; its functions are modelled by their
documented behaviour (`strtoumax`, `strsep`, `fgets`, `strncmp`) or left abstract (`Libc`).
-/

namespace HugepagesPreload

/-! ## C library facts used by the sources -/

/-- A NUL-terminated C string, without its terminator. -/
abbrev CString := List Char

/-- Largest `uintmax_t`, also the value of `(uintmax_t) -1`. -/
def UINTMAX_MAX : Nat := 2 ^ 64 - 1

/-- Largest `size_t` from `limits.h` on LP64. -/
def SIZE_MAX : Nat := 2 ^ 64 - 1

/-- The `errno` value `strtoumax` reports on overflow. -/
def ERANGE : Nat := 34

/-- The constant `PATH_MAX` from `limits.h`. -/
def PATH_MAX : Nat := 4096

/-- The white-space class of `isspace` in the C locale. -/
def isspace (c : Char) : Bool :=
  c = ' ' || c = '\t' || c = '\n' || c = Char.ofNat 11 || c = Char.ofNat 12 || c = '\r'

/-- The class of `isdigit`: the ten decimal digits. -/
def isdigit (c : Char) : Bool := decide ('0' ≤ c) && decide (c ≤ '9')

/-- Value of a string of decimal digits, most significant digit first; it inverts decimal
printing (`digitsValue_toDigits`). -/
def digitsValue (ds : List Char) : Nat :=
  ds.foldl (fun acc c => acc * 10 + (c.toNat - 48)) 0

/-- What a call `x = strtoumax(s, &endp, 10)` with `errno = 0` beforehand leaves behind:
the returned value, the offset of `endp` from `s`, and `errno`. -/
structure StrtoResult where
  value : Nat
  endp : Nat
  errno : Nat
  deriving DecidableEq

/-- The C library function `strtoumax(s, &endp, 10)`: skip leading white space, accept one
optional sign, read the longest run of decimal digits. Without a digit nothing is converted
and `endp` is `s` itself (offset 0). A value above `UINTMAX_MAX` is reported as `UINTMAX_MAX`
with `errno = ERANGE`; a minus sign negates the value in the unsigned type. -/
def strtoumax (s : CString) : StrtoResult :=
  let ws := s.takeWhile isspace
  let s1 := s.dropWhile isspace
  let neg : Bool := s1.head? = some '-'
  let sign : Nat := if s1.head? = some '-' ∨ s1.head? = some '+' then 1 else 0
  let ds := (s1.drop sign).takeWhile isdigit
  if ds = [] then ⟨0, 0, 0⟩
  else if UINTMAX_MAX < digitsValue ds then ⟨UINTMAX_MAX, ws.length + sign + ds.length, ERANGE⟩
  else ⟨if neg then (2 ^ 64 - digitsValue ds) % 2 ^ 64 else digitsValue ds,
        ws.length + sign + ds.length, 0⟩

/-- The test `strcmp(a, b) == 0`. -/
def strcmp_eq (a b : CString) : Bool := a == b

/-- The test `strncmp(a, b, n) == 0`: the first `n` characters agree, a shorter string ending
the comparison at its terminator. -/
def strncmp_eq (a b : CString) (n : Nat) : Bool := a.take n == b.take n

/-- One call `found = strsep(&opts, ",")`: the pair of `found` and the new value of `opts`.
With `opts == NULL` it returns `NULL`; otherwise the token runs up to the first comma, and
`opts` moves past that comma or becomes `NULL` when there is none. -/
def strsep (stringp : Option CString) : Option CString × Option CString :=
  match stringp with
  | none => (none, none)
  | some s =>
    match s.dropWhile (fun c => c != ',') with
    | [] => (some (s.takeWhile (fun c => c != ',')), none)
    | _ :: rest => (some (s.takeWhile (fun c => c != ',')), some rest)

/-- The characters one `fgets` call moves into a buffer with room for `n` characters, and the
stream left behind: reading stops after a newline, after `n` characters or at end of file. -/
def fgets_read : Nat → List Char → List Char × List Char
  | 0, stream => ([], stream)
  | _ + 1, [] => ([], [])
  | n + 1, c :: stream =>
    if c = '\n' then ([c], stream)
    else ((c :: (fgets_read n stream).1), (fgets_read n stream).2)

/-- The call `fgets(buf, size, stream)`: `none` is the `NULL` returned at end of file,
otherwise the bytes stored in `buf` (at most `size - 1`) and the rest of the stream. -/
def fgets (size : Nat) (stream : List Char) : Option (List Char × List Char) :=
  if stream = [] then none else some (fgets_read (size - 1) stream)

/-- The C string held by a buffer: its bytes up to the first NUL. -/
def c_str (buf : List Char) : CString := buf.takeWhile (fun c => c != Char.ofNat 0)

/-- The `printf` conversion `%lu` of an `unsigned long`. -/
def fmt_lu (n : Nat) : CString := Nat.toDigits 10 (n % 2 ^ 64)

/-- The value of `(long) x` for a `uintmax_t x` (two's complement, as gcc defines it). -/
def to_long (x : Nat) : Int :=
  if x % 2 ^ 64 < 2 ^ 63 then ((x % 2 ^ 64 : Nat) : Int) else ((x % 2 ^ 64 : Nat) : Int) - 2 ^ 64

/-- The `sysconf` name `_SC_PAGESIZE` of glibc. -/
def _SC_PAGESIZE : Int := 30

/-- The `sysconf` name `_SC_PAGE_SIZE`, which glibc defines as `_SC_PAGESIZE`. -/
def _SC_PAGE_SIZE : Int := _SC_PAGESIZE

/-- One row of the mount table, `struct mntent` of `mntent.h`: `mnt_fsname` is the name of the
mounted device or source, `mnt_type` the filesystem type. -/
structure mntent where
  mnt_fsname : CString
  mnt_dir : CString
  mnt_type : CString
  mnt_opts : CString
  mnt_freq : Int
  mnt_passno : Int
  deriving DecidableEq

/-- How a routine that may call `_exit` ends. -/
inductive Outcome (α : Type) where
  | exited (status : Int)
  | returned (a : α)
  deriving DecidableEq

/-! ## Size Parser (`parse_humanreadable`, lines 37-64) -/

/-- The `switch (*endp)` of lines 47-53: the shift for the character at `endp`, `none` for
the `default: goto error` branch. The character 0 is the end of the string. -/
def suffix_shift (c : Char) : Option Nat :=
  if c = 'K' then some 10
  else if c = 'M' then some 20
  else if c = 'G' then some 30
  else if c = Char.ofNat 0 then some 0
  else none

/-- The function `parse_humanreadable(s, &result)`: `none` when it returns -1 (and leaves
`*result` alone), `some r` when it returns 0 after storing `r`. -/
def parse_humanreadable (s : CString) : Option Nat :=
  let r := strtoumax s
  if r.errno ≠ 0 ∨ r.endp = 0 then none
  else
    match suffix_shift ((s.drop r.endp).headD (Char.ofNat 0)) with
    | none => none
    | some sh =>
      if r.value > SIZE_MAX >>> sh then none
      else some ((r.value <<< sh) % 2 ^ 64)

/-- The suffixes the parser is specified for, each with its shift. -/
def suffixes : List (List Char × Nat) := [([], 0), (['K'], 10), (['M'], 20), (['G'], 30)]

/-! ## Startup Discovery (`sysconf_patch_initialize`, lines 66-150) -/

/-- The process-wide state the constructor leaves for the hooks. -/
structure Globals where
  determined_pagesize : Nat
  DEBUGMODE : Bool
  deriving DecidableEq

/-- What the constructor observes of the process it is loaded into: which symbols `dlsym`
finds, the environment, the entries `getmntent` yields from `/proc/mounts` (`none` when
`setmntent` fails) and which paths the real `fopen` can open for reading. -/
structure Startup where
  dlsym : CString → Bool
  getenv : CString → Option CString
  setmntent : Option (List mntent)
  orig_fopen_r : CString → Bool

/-- The function `get_sym` (lines 28-35): the process exits with status 1 when `dlsym` finds
nothing. -/
def get_sym (sys : Startup) (name : CString) : Outcome Unit :=
  if sys.dlsym name then .returned () else .exited 1

/-- The loop of lines 100-118 over the options of one entry, with the current `opts` and
`hugepage_pagesize`; the result is `hugepage_pagesize` when the loop is left. The first
argument bounds the number of iterations. -/
def scan_options_loop : Nat → Option CString → Nat → Nat
  | 0, _, hugepage_pagesize => hugepage_pagesize
  | fuel + 1, opts, hugepage_pagesize =>
    match strsep opts with
    | (none, _) => hugepage_pagesize
    | (some found, opts) =>
      if strncmp_eq found "pagesize=".toList 9 then
        match parse_humanreadable (found.drop 9) with
        | none => scan_options_loop fuel opts hugepage_pagesize
        | some parsed_size => parsed_size
      else scan_options_loop fuel opts hugepage_pagesize

/-- Lines 95-118 for an entry with options `mnt_opts`; the `strdup` of line 95 is taken to
succeed. Every iteration consumes a comma, so the bound is never reached before `strsep`
returns `NULL` (`scan_options_loop_fuel`). -/
def scan_options (mnt_opts : CString) (hugepage_pagesize : Nat) : Nat :=
  scan_options_loop (mnt_opts.length + 2) (some mnt_opts) hugepage_pagesize

/-- The loop of lines 87-126 over the entries of the mount table: the value of
`hugepage_pagesize` after it. -/
def scan_mounts (hugepage_mountpoint : CString) : List mntent → Nat → Nat
  | [], hugepage_pagesize => hugepage_pagesize
  | mnt :: rest, hugepage_pagesize =>
    if strcmp_eq mnt.mnt_fsname "hugetlbfs".toList then
      if strcmp_eq mnt.mnt_dir hugepage_mountpoint then
        scan_options mnt.mnt_opts hugepage_pagesize
      else scan_mounts hugepage_mountpoint rest hugepage_pagesize
    else scan_mounts hugepage_mountpoint rest hugepage_pagesize

/-- Lines 78-129: the value of `hugepage_pagesize` after the scan, which starts at
`(uintmax_t) -1`. -/
def find_pagesize (sys : Startup) : Outcome Nat :=
  match sys.getenv "HP_PRL_HPP".toList with
  | some hugepage_mountpoint =>
    match sys.setmntent with
    | none => .exited 1
    | some table => .returned (scan_mounts hugepage_mountpoint table UINTMAX_MAX)
  | none => .returned UINTMAX_MAX

/-- The path probed on line 138. It is far shorter than `PATH_MAX`, so `snprintf` does not
truncate it. -/
def nr_hugepages_path (hugepage_pagesize : Nat) : CString :=
  "/sys/kernel/mm/hugepages/hugepages-".toList ++ fmt_lu (hugepage_pagesize >>> 10)
    ++ "kB/nr_hugepages".toList

/-- The constructor `sysconf_patch_initialize`: either the process exits, or the globals are
set and the process is ready. Diagnostics written to `stderr` are left out. -/
def sysconf_patch_initialize (sys : Startup) : Outcome Globals :=
  match get_sym sys "sysconf".toList with
  | .exited status => .exited status
  | .returned _ =>
    match get_sym sys "fopen".toList with
    | .exited status => .exited status
    | .returned _ =>
      match find_pagesize sys with
      | .exited status => .exited status
      | .returned hugepage_pagesize =>
        if hugepage_pagesize = UINTMAX_MAX then .exited 1
        else if !sys.orig_fopen_r (nr_hugepages_path hugepage_pagesize) then .exited 1
        else .returned
          { determined_pagesize := hugepage_pagesize
            DEBUGMODE := sys.getenv "HP_PRL_DEBUG".toList == some "1".toList }

/-- An option token that the scan of lines 100-118 passes over: it is not a `pagesize=`
option, or its value does not parse. -/
abbrev is_skipped (tok : CString) : Prop :=
  (∀ c ∈ tok, c ≠ ',') ∧
    (strncmp_eq tok "pagesize=".toList 9 = false ∨ parse_humanreadable (tok.drop 9) = none)

/-- Options written one after the other, each followed by a comma. -/
def join_options (toks : List CString) : CString :=
  toks.flatMap (fun t => t ++ [','])

/-! ## Meminfo Rewriter (`rewrite_meminfo`, lines 152-197) -/

/-- The body of the loop of lines 173-179: what is printed to the temporary file for one
buffer filled by `fgets`. -/
def rewrite_line (bytes : Nat) (buf : List Char) : List Char :=
  if strncmp_eq (c_str buf) "Hugepagesize:".toList 13 then
    "Hugepagesize:   ".toList ++ fmt_lu (bytes >>> 10) ++ " kB\n".toList
  else
    c_str buf ++ "\n".toList

/-- The loop `while (fgets(buf, 256, mi))` of lines 173-179 on the bytes still to be read
from `mi`: everything it prints to `ti`. The first argument bounds the number of
iterations. -/
def rewrite_loop (bytes : Nat) : Nat → List Char → List Char
  | 0, _ => []
  | fuel + 1, mi =>
    match fgets 256 mi with
    | none => []
    | some (buf, mi) => rewrite_line bytes buf ++ rewrite_loop bytes fuel mi

/-- The content of the temporary file for a meminfo file with content `meminfo`. Every
iteration reads at least one byte, so the bound is never reached before end of file
(`rewrite_loop_fuel`). -/
def rewritten_meminfo (bytes : Nat) (meminfo : List Char) : List Char :=
  rewrite_loop bytes meminfo.length meminfo

/-- A stream prefix that stops at a line boundary: it is empty or ends with a newline. -/
def ends_lines (pre : List Char) : Prop := pre = [] ∨ pre.getLast? = some '\n'

/-! ## Interception hooks (lines 199-227) -/

/-- The C library as the hooks and the rewriter use it, over a world `W` and stream handles
`F`. The fields `orig_sysconf` and `orig_fopen` are the functions bound by `get_sym`;
`mkstemp` returns the name it wrote over the template; `read_all` is everything successive
reads deliver from a stream; `fputs` appends to a stream; `strerror_errno` is
`strerror(errno)`. -/
structure Libc (W F : Type) where
  orig_sysconf : Int → W → Int × W
  orig_fopen : CString → CString → W → Option F × W
  malloc : Nat → W → Bool × W
  mkstemp : CString → W → Option CString × W
  read_all : F → W → List Char × W
  fputs : F → List Char → W → W
  fclose : F → W → W
  stderr : CString → W → W
  strerror_errno : W → CString

/-- The tag `PREFIX` of `hugepages_preload.h`. -/
def PREFIX : CString := "[hugepage_fix_preload]".toList

/-- The function `rewrite_meminfo(bytes, &result_path)`: `none` when it returns -1, the path
stored in `*result_path` when it returns 0. The reads from `mi` and the prints to `ti`
touch different streams, so the loop is one `read_all` followed by one `fputs` of
`rewritten_meminfo`. The allocation of `buf` is not checked by the source and is taken to
succeed. -/
def rewrite_meminfo {W F : Type} (libc : Libc W F) (bytes : Nat) (w : W) : Option CString × W :=
  match libc.malloc PATH_MAX w with
  | (false, w) => (none, w)
  | (true, w) =>
    match libc.mkstemp "/tmp/.rewritten-meminfoXXXXXX".toList w with
    | (none, w) => (none, w)
    | (some fname, w) =>
      match libc.orig_fopen "/proc/meminfo".toList "r".toList w with
      | (none, w) => (none, w)
      | (some mi, w) =>
        match libc.orig_fopen fname "w".toList w with
        | (none, w) => (none, libc.fclose mi w)
        | (some ti, w) =>
          match libc.read_all mi w with
          | (meminfo, w) =>
            (some fname,
              libc.fclose ti (libc.fclose mi (libc.fputs ti (rewritten_meminfo bytes meminfo) w)))

/-- The exported hook `sysconf(name)`. -/
def sysconf {W F : Type} (libc : Libc W F) (g : Globals) (name : Int) (w : W) : Int × W :=
  if name = _SC_PAGESIZE ∨ name = _SC_PAGE_SIZE then (to_long g.determined_pagesize, w)
  else libc.orig_sysconf name w

/-- The exported hook `fopen64(path, mode)`; `none` is the `NULL` stream. -/
def fopen64 {W F : Type} (libc : Libc W F) (g : Globals) (path mode : CString) (w : W) :
    Option F × W :=
  if strcmp_eq path "/proc/meminfo".toList then
    match rewrite_meminfo libc g.determined_pagesize
        (if g.DEBUGMODE then libc.stderr (PREFIX ++ " Masking /proc/meminfo file\n".toList) w
         else w) with
    | (none, w) =>
      (none, libc.stderr (PREFIX ++ " ERROR: failed to mask /proc/meminfo: ".toList
        ++ libc.strerror_errno w ++ "\n".toList) w)
    | (some filename, w) => libc.orig_fopen filename mode w
  else libc.orig_fopen path mode w

/-- The exported hook `fopen(path, mode)`, which returns `fopen64(path, mode)`. -/
def fopen {W F : Type} (libc : Libc W F) (g : Globals) (path mode : CString) (w : W) :
    Option F × W :=
  fopen64 libc g path mode w

/-! ## Concrete surroundings for evaluating the model -/

/-- A call into the C library, as recorded by `recorder`. -/
inductive Call where
  | sysconf (name : Int)
  | fopen (path mode : CString)
  | malloc (size : Nat)
  | mkstemp (template : CString)
  | read_all (stream : CString)
  | fputs (stream : CString) (text : List Char)
  | fclose (stream : CString)
  | stderr (text : CString)
  deriving DecidableEq

/-- A meminfo file with a `Hugepagesize:` line among ordinary lines. -/
def meminfo_fixture : List Char :=
  "MemTotal:       16384 kB\nHugepagesize:       2048 kB\nDirectMap4k:      1024 kB\n".toList

/-- A C library in which every call succeeds and is recorded: the world is the list of
calls made so far, a stream is named by its path, and every read stream delivers
`meminfo_fixture`. -/
def recorder : Libc (List Call) CString where
  orig_sysconf := fun name w => (if name = 84 then 8 else -1, w ++ [Call.sysconf name])
  orig_fopen := fun path mode w => (some path, w ++ [Call.fopen path mode])
  malloc := fun size w => (true, w ++ [Call.malloc size])
  mkstemp := fun template w =>
    (some "/tmp/.rewritten-meminfoq3Zw0T".toList, w ++ [Call.mkstemp template])
  read_all := fun stream w => (meminfo_fixture, w ++ [Call.read_all stream])
  fputs := fun stream text w => w ++ [Call.fputs stream text]
  fclose := fun stream w => w ++ [Call.fclose stream]
  stderr := fun text w => w ++ [Call.stderr text]
  strerror_errno := fun _ => "Success".toList

/-- A process in which both symbols resolve, `HP_PRL_HPP` names `mountpoint`, the mount
table is `table` and every probed sysfs file can be opened. -/
def startup_with (mountpoint : CString) (table : List mntent) : Startup where
  dlsym := fun _ => true
  getenv := fun name => if name = "HP_PRL_HPP".toList then some mountpoint else none
  setmntent := some table
  orig_fopen_r := fun _ => true

theorem digitsValue_foldl (ds : List Char) (a : Nat) :
    ds.foldl (fun acc c => acc * 10 + (c.toNat - 48)) a = a * 10 ^ ds.length + digitsValue ds := by
  induction ds generalizing a with
  | nil => simp [digitsValue]
  | cons d ds ih =>
    simp only [digitsValue, List.foldl_cons, List.length_cons] at ih ⊢
    rw [ih (a * 10 + (d.toNat - 48)), ih (0 * 10 + (d.toNat - 48))]
    ring

theorem digitsValue_cons (d : Char) (ds : List Char) :
    digitsValue (d :: ds) = (d.toNat - 48) * 10 ^ ds.length + digitsValue ds := by
  have := digitsValue_foldl ds (0 * 10 + (d.toNat - 48))
  simpa [digitsValue] using this

theorem digitChar_value (k : Nat) (hk : k < 10) : (Nat.digitChar k).toNat - 48 = k := by
  interval_cases k <;> decide

theorem digitsValue_toDigitsCore :
    ∀ (fuel n : Nat) (ds : List Char), n < fuel →
      digitsValue (Nat.toDigitsCore 10 fuel n ds) = n * 10 ^ ds.length + digitsValue ds := by
  intro fuel
  induction fuel with
  | zero => intro n ds h; omega
  | succ fuel ih =>
    intro n ds h
    have hd := digitChar_value (n % 10) (Nat.mod_lt _ (by norm_num))
    have hn := Nat.div_add_mod n 10
    simp only [Nat.toDigitsCore]
    by_cases h0 : n / 10 = 0
    · rw [if_pos h0, digitsValue_cons, hd]
      have : n % 10 = n := by omega
      rw [this]
    · rw [if_neg h0, ih (n / 10) _ (by omega), digitsValue_cons, hd, List.length_cons, pow_succ]
      have : n / 10 * (10 ^ ds.length * 10) + (n % 10 * 10 ^ ds.length + digitsValue ds)
          = (10 * (n / 10) + n % 10) * 10 ^ ds.length + digitsValue ds := by ring
      rw [this, hn]

/-- The value of the decimal rendering of `n` is `n`. -/
theorem digitsValue_toDigits (n : Nat) : digitsValue (Nat.toDigits 10 n) = n := by
  have := digitsValue_toDigitsCore (n + 1) n [] (by omega)
  simpa [Nat.toDigits, digitsValue] using this

theorem isdigit_not_isspace {c : Char} (h : isdigit c = true) : isspace c = false := by
  have h1 : c ≠ ' ' := by rintro rfl; exact absurd h (by decide)
  have h2 : c ≠ '\t' := by rintro rfl; exact absurd h (by decide)
  have h3 : c ≠ '\n' := by rintro rfl; exact absurd h (by decide)
  have h4 : c ≠ Char.ofNat 11 := by rintro rfl; exact absurd h (by decide)
  have h5 : c ≠ Char.ofNat 12 := by rintro rfl; exact absurd h (by decide)
  have h6 : c ≠ '\r' := by rintro rfl; exact absurd h (by decide)
  simp [isspace, h1, h2, h3, h4, h5, h6]

theorem isdigit_not_sign {c : Char} (h : isdigit c = true) : c ≠ '-' ∧ c ≠ '+' := by
  constructor
  · rintro rfl; exact absurd h (by decide)
  · rintro rfl; exact absurd h (by decide)

theorem takeWhile_isdigit_append (ds rest : List Char)
    (hd : ∀ c ∈ ds, isdigit c = true)
    (hr : ∀ c, rest.head? = some c → isdigit c = false) :
    (ds ++ rest).takeWhile isdigit = ds := by
  induction ds with
  | nil =>
    cases rest with
    | nil => rfl
    | cons c t => simp [List.takeWhile_cons, hr c (by simp)]
  | cons d ds ih =>
    have hd0 : isdigit d = true := hd d (by simp)
    have := ih (fun c hc => hd c (by simp [hc]))
    simp [List.takeWhile_cons, hd0, this]

/-- On a run of digits followed by something that is not a digit, `strtoumax` reads exactly
the run. -/
theorem strtoumax_digits (digs rest : List Char) (hne : digs ≠ [])
    (hd : ∀ c ∈ digs, isdigit c = true)
    (hr : ∀ c, rest.head? = some c → isdigit c = false) :
    strtoumax (digs ++ rest) =
      if UINTMAX_MAX < digitsValue digs then ⟨UINTMAX_MAX, digs.length, ERANGE⟩
      else ⟨digitsValue digs, digs.length, 0⟩ := by
  obtain ⟨d, ds, rfl⟩ := List.exists_cons_of_ne_nil hne
  have hd0 : isdigit d = true := hd d (by simp)
  have hsp := isdigit_not_isspace hd0
  have hsg := isdigit_not_sign hd0
  have htw := takeWhile_isdigit_append (d :: ds) rest hd hr
  simp only [List.cons_append] at htw
  simp [strtoumax, List.dropWhile_cons, hsp, hsg.1, hsg.2, htw]

theorem suffix_head_not_digit {suffix : List Char} {sh : Nat} (hs : (suffix, sh) ∈ suffixes) :
    ∀ c, suffix.head? = some c → isdigit c = false := by
  simp only [suffixes, List.mem_cons, Prod.mk.injEq, List.mem_singleton, List.not_mem_nil,
    or_false] at hs
  rcases hs with ⟨rfl, _⟩ | ⟨rfl, _⟩ | ⟨rfl, _⟩ | ⟨rfl, _⟩ <;> intro c hc <;> simp at hc <;>
    subst hc <;> decide

theorem suffix_shift_of_mem {suffix : List Char} {sh : Nat} (hs : (suffix, sh) ∈ suffixes) :
    suffix_shift (suffix.headD (Char.ofNat 0)) = some sh ∧ sh ≤ 30 := by
  simp only [suffixes, List.mem_cons, Prod.mk.injEq, List.mem_singleton, List.not_mem_nil,
    or_false] at hs
  rcases hs with ⟨rfl, rfl⟩ | ⟨rfl, rfl⟩ | ⟨rfl, rfl⟩ | ⟨rfl, rfl⟩ <;> decide

/-- The parser on digits followed by a supported suffix: it succeeds exactly when the shifted
value fits in 64 bits, and then stores that value. -/
theorem parse_digits_suffix (digs suffix : List Char) (sh : Nat) (hne : digs ≠ [])
    (hd : ∀ c ∈ digs, isdigit c = true) (hs : (suffix, sh) ∈ suffixes) :
    parse_humanreadable (digs ++ suffix) =
      if digitsValue digs * 2 ^ sh < 2 ^ 64 then some (digitsValue digs * 2 ^ sh)
      else none := by
  obtain ⟨hsh, hle⟩ := suffix_shift_of_mem hs
  have hst := strtoumax_digits digs suffix hne hd (suffix_head_not_digit hs)
  have hdrop : (digs ++ suffix).drop digs.length = suffix := List.drop_left _ _
  have hlen : digs.length ≠ 0 := by
    intro h; exact hne (List.length_eq_zero.mp h)
  have hpos : 0 < 2 ^ sh := Nat.pos_of_ne_zero (by positivity)
  have hsplit : (2:Nat) ^ 64 = 2 ^ (64 - sh) * 2 ^ sh := by
    rw [← pow_add]; congr 1; omega
  unfold parse_humanreadable
  by_cases hov : UINTMAX_MAX < digitsValue digs
  · have hbig : ¬ digitsValue digs * 2 ^ sh < 2 ^ 64 := by
      have h1 : 2 ^ 64 ≤ digitsValue digs := by simp only [UINTMAX_MAX] at hov; omega
      have h2 : digitsValue digs ≤ digitsValue digs * 2 ^ sh := Nat.le_mul_of_pos_right _ hpos
      omega
    rw [if_neg hbig]
    simp only [hst, if_pos hov]
    simp [ERANGE]
  · simp only [hst, if_neg hov, hdrop, hsh]
    have hcond : ¬ ((0:Nat) ≠ 0 ∨ digs.length = 0) := by simp [hlen]
    rw [if_neg hcond]
    simp only [Nat.shiftLeft_eq, Nat.shiftRight_eq_div_pow, SIZE_MAX, gt_iff_lt]
    by_cases hfit : digitsValue digs * 2 ^ sh < 2 ^ 64
    · have h1 : ¬ (2 ^ 64 - 1) / 2 ^ sh < digitsValue digs := by
        rw [not_lt, Nat.le_div_iff_mul_le hpos]; omega
      rw [if_neg h1, if_pos hfit, Nat.mod_eq_of_lt hfit]
    · have h1 : (2 ^ 64 - 1) / 2 ^ sh < digitsValue digs := by
        rw [Nat.div_lt_iff_lt_mul hpos]; omega
      rw [if_pos h1, if_neg hfit]

/-- Only the first character after the digits is examined: whatever follows it is
ignored. -/
theorem parse_humanreadable_ignores_trailing (digs junk : List Char) (c : Char)
    (hne : digs ≠ []) (hd : ∀ d ∈ digs, isdigit d = true) (hc : isdigit c = false) :
    parse_humanreadable (digs ++ c :: junk) = parse_humanreadable (digs ++ [c]) := by
  have hr : ∀ (t : List Char) (x : Char), (c :: t).head? = some x → isdigit x = false := by
    intro t x hx
    simp only [List.head?_cons, Option.some.injEq] at hx
    rw [← hx]; exact hc
  have h1 := strtoumax_digits digs (c :: junk) hne hd (hr junk)
  have h2 := strtoumax_digits digs [c] hne hd (hr [])
  have d1 : (digs ++ c :: junk).drop digs.length = c :: junk := List.drop_left _ _
  have d2 : (digs ++ [c]).drop digs.length = [c] := List.drop_left _ _
  unfold parse_humanreadable
  rw [h1, h2]
  by_cases hov : UINTMAX_MAX < digitsValue digs
  · simp only [if_pos hov, d1, d2, List.headD_cons]
  · simp only [if_neg hov, d1, d2, List.headD_cons]

/-- Whatever the input, a stored result is a 64-bit value. -/
theorem parse_humanreadable_lt (s : CString) (r : Nat) (h : parse_humanreadable s = some r) :
    r < 2 ^ 64 := by
  unfold parse_humanreadable at h
  simp only at h
  split at h
  · cases h
  · split at h
    · cases h
    · split at h
      · cases h
      · cases h
        exact Nat.mod_lt _ (by norm_num)

/-! ## Lemmas on Startup Discovery -/

theorem strsep_comma (tok rest : CString) (h : ∀ c ∈ tok, c ≠ ',') :
    strsep (some (tok ++ ',' :: rest)) = (some tok, some rest) := by
  have hp : ∀ c ∈ tok, (fun c => c != ',') c = true := by
    intro c hc; simpa using h c hc
  simp [strsep, List.takeWhile_append_of_pos hp, List.dropWhile_append_of_pos hp]

theorem strsep_last (tok : CString) (h : ∀ c ∈ tok, c ≠ ',') :
    strsep (some tok) = (some tok, none) := by
  have hp : ∀ c ∈ tok, (fun c => c != ',') c = true := by
    intro c hc; simpa using h c hc
  have h1 := @List.takeWhile_append_of_pos Char (fun c => c != ',') tok [] hp
  have h2 := @List.dropWhile_append_of_pos Char (fun c => c != ',') tok [] hp
  simp only [List.append_nil, List.takeWhile_nil, List.dropWhile_nil] at h1 h2
  simp [strsep, h1, h2]

theorem strsep_rest_length (s found rest : CString) (o : Option CString)
    (h : strsep (some s) = (some found, o)) (ho : o = some rest) : rest.length < s.length := by
  subst ho
  have hsplit := List.takeWhile_append_dropWhile (fun c => c != ',') s
  unfold strsep at h
  simp only at h
  split at h
  · cases h
  · rename_i c r heq
    cases h
    have := congrArg List.length hsplit
    rw [heq] at this
    simp only [List.length_append, List.length_cons] at this
    omega

/-- The bound on the iterations of the option scan is never the reason it stops. -/
theorem scan_options_loop_fuel :
    ∀ (f1 f2 : Nat) (s : CString) (hp : Nat), s.length < f1 → s.length < f2 →
      scan_options_loop f1 (some s) hp = scan_options_loop f2 (some s) hp := by
  intro f1
  induction f1 with
  | zero => intro f2 s hp h1 _; omega
  | succ f1 ih =>
    intro f2 s hp h1 h2
    obtain ⟨g2, rfl⟩ : ∃ g, f2 = g + 1 := ⟨f2 - 1, by omega⟩
    simp only [scan_options_loop]
    rcases hsep : strsep (some s) with ⟨found, o⟩
    cases found with
    | none => rfl
    | some found =>
      have hnext : scan_options_loop f1 o hp = scan_options_loop g2 o hp := by
        cases o with
        | none => cases f1 <;> cases g2 <;> simp [scan_options_loop, strsep]
        | some rest =>
          have := strsep_rest_length s found rest _ hsep rfl
          exact ih g2 rest hp (by omega) (by omega)
      simp only [hnext]

theorem scan_options_loop_first (skipped : List CString) (value tail : CString) (n : Nat)
    (hskip : ∀ t ∈ skipped, is_skipped t)
    (hv : ∀ c ∈ value, c ≠ ',')
    (hparse : parse_humanreadable value = some n)
    (htail : tail = [] ∨ ∃ r, tail = ',' :: r) :
    ∀ fuel hp, skipped.length < fuel →
      scan_options_loop fuel
        (some (join_options skipped ++ ("pagesize=".toList ++ value) ++ tail)) hp = n := by
  induction skipped with
  | nil =>
    intro fuel hp hf
    obtain ⟨f, rfl⟩ : ∃ f, fuel = f + 1 := ⟨fuel - 1, by simp at hf; omega⟩
    have hcomma : ∀ c ∈ "pagesize=".toList ++ value, c ≠ ',' := by
      intro c hc
      rcases List.mem_append.mp hc with h | h
      · have hall : ∀ c ∈ "pagesize=".toList, c ≠ ',' := by decide
        exact hall c h
      · exact hv c h
    have hsep : ∃ o, strsep (some (join_options [] ++ ("pagesize=".toList ++ value) ++ tail))
        = (some ("pagesize=".toList ++ value), o) := by
      rcases htail with rfl | ⟨r, rfl⟩
      · exact ⟨none, by simpa [join_options] using strsep_last _ hcomma⟩
      · exact ⟨some r, by simpa [join_options] using strsep_comma _ r hcomma⟩
    obtain ⟨o, ho⟩ := hsep
    have hpre : strncmp_eq ("pagesize=".toList ++ value) "pagesize=".toList 9 = true := by
      simp [strncmp_eq]
    have hdrop : ("pagesize=".toList ++ value).drop 9 = value := by
      simp
    simp only [scan_options_loop, ho, hpre, hdrop, hparse, if_true]
  | cons t ts ih =>
    intro fuel hp hf
    obtain ⟨f, rfl⟩ : ∃ f, fuel = f + 1 := ⟨fuel - 1, by simp at hf; omega⟩
    have ht := hskip t (by simp)
    have hjoin : join_options (t :: ts) ++ ("pagesize=".toList ++ value) ++ tail
        = t ++ ',' :: (join_options ts ++ ("pagesize=".toList ++ value) ++ tail) := by
      simp [join_options]
    have hrec := ih (fun u hu => hskip u (by simp [hu])) f hp (by simpa using hf)
    rw [hjoin]
    simp only [scan_options_loop, strsep_comma t _ ht.1]
    rcases ht.2 with h | h
    · simp only [h, Bool.false_eq_true, if_false]; exact hrec
    · by_cases hk : strncmp_eq t "pagesize=".toList 9 = true
      · simp only [hk, if_true, h]; exact hrec
      · simp only [hk, if_false]; exact hrec

theorem join_options_length (toks : List CString) : toks.length ≤ (join_options toks).length := by
  induction toks with
  | nil => simp [join_options]
  | cons t ts ih =>
    simp only [join_options, List.flatMap_cons, List.length_append, List.length_cons,
      List.length_nil] at ih ⊢
    omega

theorem fgets_read_append_eq (n : Nat) (s : List Char) :
    (fgets_read n s).1 ++ (fgets_read n s).2 = s := by
  induction s generalizing n with
  | nil => cases n <;> simp [fgets_read]
  | cons c s ih =>
    cases n with
    | zero => simp [fgets_read]
    | succ n =>
      by_cases hc : c = '\n'
      · simp [fgets_read, hc]
      · simp [fgets_read, hc, ih n]

theorem fgets_read_rest_length (n : Nat) (c : Char) (s : List Char) :
    (fgets_read (n + 1) (c :: s)).2.length ≤ s.length := by
  have h := congrArg List.length (fgets_read_append_eq (n + 1) (c :: s))
  have h1 : 1 ≤ (fgets_read (n + 1) (c :: s)).1.length := by
    by_cases hc : c = '\n' <;> simp [fgets_read, hc]
  simp only [List.length_append, List.length_cons] at h
  omega

/-- The bound on the iterations of the copy loop is never the reason it stops. -/
theorem rewrite_loop_fuel (bytes : Nat) :
    ∀ (f1 f2 : Nat) (s : List Char), s.length ≤ f1 → s.length ≤ f2 →
      rewrite_loop bytes f1 s = rewrite_loop bytes f2 s := by
  intro f1
  induction f1 with
  | zero =>
    intro f2 s h1 _
    have hs : s = [] := List.length_eq_zero.mp (Nat.le_zero.mp h1)
    subst hs
    cases f2 <;> simp [rewrite_loop, fgets]
  | succ f1 ih =>
    intro f2 s h1 h2
    cases s with
    | nil => cases f2 <;> simp [rewrite_loop, fgets]
    | cons c s =>
      cases f2 with
      | zero => simp at h2
      | succ f2 =>
        have hlen : (fgets_read (256 - 1) (c :: s)).2.length ≤ s.length :=
          fgets_read_rest_length 254 c s
        simp only [List.length_cons] at h1 h2
        simp only [rewrite_loop, fgets, reduceCtorEq, if_false]
        rw [ih f2 _ (by omega) (by omega)]

theorem rewritten_meminfo_nil (bytes : Nat) : rewritten_meminfo bytes [] = [] := by
  simp [rewritten_meminfo, rewrite_loop]

/-- One iteration of the copy loop. -/
theorem rewritten_meminfo_cons (bytes : Nat) (c : Char) (s : List Char) :
    rewritten_meminfo bytes (c :: s) =
      rewrite_line bytes (fgets_read 255 (c :: s)).1 ++
        rewritten_meminfo bytes (fgets_read 255 (c :: s)).2 := by
  have hlen : (fgets_read (256 - 1) (c :: s)).2.length ≤ s.length :=
    fgets_read_rest_length 254 c s
  simp only [rewritten_meminfo, List.length_cons, rewrite_loop, fgets, reduceCtorEq, if_false]
  rw [rewrite_loop_fuel bytes s.length _ _ hlen (le_refl _)]

theorem fgets_read_line (line post : List Char) (hnl : ∀ c ∈ line, c ≠ '\n') :
    ∀ n, line.length < n → fgets_read n (line ++ '\n' :: post) = (line ++ ['\n'], post) := by
  induction line with
  | nil =>
    intro n hn
    obtain ⟨m, rfl⟩ : ∃ m, n = m + 1 := ⟨n - 1, by simp at hn; omega⟩
    simp [fgets_read]
  | cons c line ih =>
    intro n hn
    obtain ⟨m, rfl⟩ : ∃ m, n = m + 1 := ⟨n - 1, by simp at hn; omega⟩
    have hc : c ≠ '\n' := hnl c (by simp)
    have := ih (fun d hd => hnl d (by simp [hd])) m (by simpa using hn)
    simp [fgets_read, hc, this]

theorem fgets_read_eof (line : List Char) (hnl : ∀ c ∈ line, c ≠ '\n') :
    ∀ n, line.length ≤ n → fgets_read n line = (line, []) := by
  induction line with
  | nil => intro n _; cases n <;> simp [fgets_read]
  | cons c line ih =>
    intro n hn
    obtain ⟨m, rfl⟩ : ∃ m, n = m + 1 := ⟨n - 1, by simp at hn; omega⟩
    have hc : c ≠ '\n' := hnl c (by simp)
    have := ih (fun d hd => hnl d (by simp [hd])) m (by simpa using hn)
    simp [fgets_read, hc, this]

theorem ends_lines_tail (c : Char) (pre : List Char) (h : ends_lines (c :: pre)) :
    ends_lines pre := by
  cases pre with
  | nil => exact Or.inl rfl
  | cons d pre =>
    rcases h with h | h
    · cases h
    · exact Or.inr (by simpa [List.getLast?_cons_cons] using h)

theorem fgets_read_rest_ends (pre : List Char) :
    ∀ n, ends_lines pre → ends_lines (fgets_read n pre).2 := by
  induction pre with
  | nil => intro n _; cases n <;> simp [fgets_read, ends_lines]
  | cons c pre ih =>
    intro n h
    cases n with
    | zero => simpa [fgets_read] using h
    | succ m =>
      by_cases hc : c = '\n'
      · simpa [fgets_read, hc] using ends_lines_tail c pre h
      · simpa [fgets_read, hc] using ih m (ends_lines_tail c pre h)

theorem fgets_read_prefix (pre rest : List Char) :
    ∀ n, (n = 0 ∨ pre.getLast? = some '\n') →
      fgets_read n (pre ++ rest) = ((fgets_read n pre).1, (fgets_read n pre).2 ++ rest) := by
  induction pre with
  | nil =>
    intro n hn
    rcases hn with rfl | h
    · simp [fgets_read]
    · simp at h
  | cons c pre ih =>
    intro n hn
    cases n with
    | zero => simp [fgets_read]
    | succ m =>
      have hlast : (c :: pre).getLast? = some '\n' := by
        rcases hn with h | h
        · omega
        · exact h
      by_cases hc : c = '\n'
      · subst hc
        simp [fgets_read]
      · have hpre : pre.getLast? = some '\n' := by
          cases pre with
          | nil => simp at hlast; exact absurd hlast hc
          | cons d pre => simpa [List.getLast?_cons_cons] using hlast
        have h1 := ih m (Or.inr hpre)
        simp [fgets_read, hc, h1]

/-- The copy loop works line by line: what it prints for a file is what it prints for a
prefix that ends at a line boundary, followed by what it prints for the rest. -/
theorem rewritten_meminfo_append (bytes : Nat) (rest : List Char) :
    ∀ (k : Nat) (pre : List Char), pre.length ≤ k → ends_lines pre →
      rewritten_meminfo bytes (pre ++ rest) =
        rewritten_meminfo bytes pre ++ rewritten_meminfo bytes rest := by
  intro k
  induction k with
  | zero =>
    intro pre hk _
    have hs : pre = [] := List.length_eq_zero.mp (Nat.le_zero.mp hk)
    subst hs
    simp [rewritten_meminfo_nil]
  | succ k ih =>
    intro pre hk hpre
    cases pre with
    | nil => simp [rewritten_meminfo_nil]
    | cons c pre =>
      have hlast : (c :: pre).getLast? = some '\n' := by
        rcases hpre with h | h
        · cases h
        · exact h
      have hsplit := fgets_read_prefix (c :: pre) rest 255 (Or.inr hlast)
      have hends := fgets_read_rest_ends (c :: pre) 255 hpre
      have hlen := fgets_read_rest_length 254 c pre
      simp only [List.length_cons] at hk
      have hrec := ih (fgets_read 255 (c :: pre)).2 (by
        have : (fgets_read 255 (c :: pre)).2.length ≤ pre.length := hlen
        omega) hends
      rw [rewritten_meminfo_cons bytes c pre]
      have hcons : c :: pre ++ rest = c :: (pre ++ rest) := rfl
      rw [hcons, rewritten_meminfo_cons bytes c (pre ++ rest)]
      rw [← hcons, hsplit]
      simp only [hrec, List.append_assoc]

/-- A buffer that begins with `Hugepagesize:` is printed as the replacement line. -/
theorem rewrite_line_hugepagesize (bytes : Nat) (hS : bytes < 2 ^ 64) (buf : List Char) :
    rewrite_line bytes ("Hugepagesize:".toList ++ buf) =
      "Hugepagesize:   ".toList ++ Nat.toDigits 10 (bytes / 1024) ++ " kB\n".toList := by
  have hp : ∀ c ∈ "Hugepagesize:".toList, (fun c => c != Char.ofNat 0) c = true := by decide
  have hc : c_str ("Hugepagesize:".toList ++ buf) = "Hugepagesize:".toList ++ c_str buf := by
    simp only [c_str]
    exact List.takeWhile_append_of_pos hp
  have ht : strncmp_eq (c_str ("Hugepagesize:".toList ++ buf)) "Hugepagesize:".toList 13 = true := by
    rw [hc]
    have h1 : ("Hugepagesize:".toList ++ c_str buf).take 13 = "Hugepagesize:".toList :=
      List.take_left' (by decide)
    have h2 : ("Hugepagesize:".toList).take 13 = "Hugepagesize:".toList := by decide
    simp only [strncmp_eq, h1, h2, beq_self_eq_true]
  have hdiv : (bytes >>> 10) % 2 ^ 64 = bytes / 1024 := by
    rw [Nat.shiftRight_eq_div_pow]
    have : bytes / 2 ^ 10 ≤ bytes := Nat.div_le_self _ _
    rw [Nat.mod_eq_of_lt (by omega)]
  simp only [rewrite_line, ht, if_true, fmt_lu, hdiv]

/-- On its success path `rewrite_meminfo` writes `rewritten_meminfo` of the bytes read from
the real meminfo file into the temporary file, and returns that file's path. -/
theorem rewrite_meminfo_writes {W F : Type} (libc : Libc W F) (bytes : Nat) (w w1 w2 w3 w4 w5 : W)
    (fname : CString) (mi ti : F) (meminfo : List Char)
    (h1 : libc.malloc PATH_MAX w = (true, w1))
    (h2 : libc.mkstemp "/tmp/.rewritten-meminfoXXXXXX".toList w1 = (some fname, w2))
    (h3 : libc.orig_fopen "/proc/meminfo".toList "r".toList w2 = (some mi, w3))
    (h4 : libc.orig_fopen fname "w".toList w3 = (some ti, w4))
    (h5 : libc.read_all mi w4 = (meminfo, w5)) :
    rewrite_meminfo libc bytes w =
      (some fname,
        libc.fclose ti (libc.fclose mi (libc.fputs ti (rewritten_meminfo bytes meminfo) w5))) := by
  simp only [rewrite_meminfo, h1, h2, h3, h4, h5]

/-! ## Size Parser: claims C5, C6, C7 -/

/-- Claim C5: for every non-empty string of decimal digits with value `n`, followed by
nothing or by exactly one of the suffix characters K, M, G (shift 0, 10, 20, 30), such that
`n * 2 ^ sh < 2 ^ 64`, `parse_humanreadable` succeeds and stores exactly `n * 2 ^ sh`. -/
theorem parse_humanreadable_valid (digs suffix : List Char) (sh : Nat) (hne : digs ≠ [])
    (hd : ∀ c ∈ digs, isdigit c = true) (hs : (suffix, sh) ∈ suffixes)
    (hfit : digitsValue digs * 2 ^ sh < 2 ^ 64) :
    parse_humanreadable (digs ++ suffix) = some (digitsValue digs * 2 ^ sh) := by
  rw [parse_digits_suffix digs suffix sh hne hd hs, if_pos hfit]

/-- The four examples of claim C5: `2K`, `1M`, `1G` and `4096`. -/
theorem parse_humanreadable_valid_witness :
    parse_humanreadable "2K".toList = some 2048 ∧
    parse_humanreadable "1M".toList = some 1048576 ∧
    parse_humanreadable "1G".toList = some 1073741824 ∧
    parse_humanreadable "4096".toList = some 4096 :=
  ⟨parse_humanreadable_valid "2".toList "K".toList 10 (by decide) (by decide) (by decide)
      (by decide),
   parse_humanreadable_valid "1".toList "M".toList 20 (by decide) (by decide) (by decide)
      (by decide),
   parse_humanreadable_valid "1".toList "G".toList 30 (by decide) (by decide) (by decide)
      (by decide),
   parse_humanreadable_valid "4096".toList [] 0 (by decide) (by decide) (by decide)
      (by decide)⟩

/-- Claim C6 is violated by the code: `parse_humanreadable` looks only at the one character
that follows the number, and `strtoumax` skips leading white space and accepts a sign. So
`2MB` and `2M,` (unsupported suffixes) and ` 2M` (non-numeric prefix) are parsed as 2097152
and `-1` as 18446744073709551615, where the claim wants a failure. The other examples of the
claim do fail. -/
theorem parse_humanreadable_accepts_malformed :
    parse_humanreadable "2MB".toList = some 2097152 ∧
    parse_humanreadable "2M,".toList = some 2097152 ∧
    parse_humanreadable " 2M".toList = some 2097152 ∧
    parse_humanreadable "-1".toList = some 18446744073709551615 ∧
    parse_humanreadable "".toList = none ∧
    parse_humanreadable "M".toList = none ∧
    parse_humanreadable "x2M".toList = none ∧
    parse_humanreadable "2T".toList = none ∧
    parse_humanreadable "2k".toList = none := by
  decide

/-- Claim C7: for every string of decimal digits with value `n` and every supported suffix
with shift `sh`, `parse_humanreadable` fails when `n * 2 ^ sh` does not fit in 64 bits
(also when `n` itself does not), and whenever it succeeds the stored result is the
mathematical value `n * 2 ^ sh`, not that value modulo `2 ^ 64`. -/
theorem parse_humanreadable_no_wrap (digs suffix : List Char) (sh : Nat)
    (hd : ∀ c ∈ digs, isdigit c = true) (hs : (suffix, sh) ∈ suffixes) :
    (2 ^ 64 ≤ digitsValue digs * 2 ^ sh → parse_humanreadable (digs ++ suffix) = none) ∧
    (∀ r, parse_humanreadable (digs ++ suffix) = some r → r = digitsValue digs * 2 ^ sh) := by
  by_cases hne : digs = []
  · subst hne
    have hnone : parse_humanreadable ([] ++ suffix) = none := by
      simp only [suffixes, List.mem_cons, Prod.mk.injEq, List.mem_singleton, List.not_mem_nil,
        or_false] at hs
      rcases hs with ⟨rfl, _⟩ | ⟨rfl, _⟩ | ⟨rfl, _⟩ | ⟨rfl, _⟩ <;> decide
    exact ⟨fun _ => hnone, fun r hr => by rw [hnone] at hr; cases hr⟩
  · rw [parse_digits_suffix digs suffix sh hne hd hs]
    constructor
    · intro h; rw [if_neg (by omega)]
    · intro r hr
      split at hr
      · exact (Option.some.inj hr).symm
      · cases hr

/-- Claim C7 at `17179869184G` (exactly `2 ^ 64`, rejected), at `18446744073709551616`
(`2 ^ 64` without a suffix, rejected) and at `17179869183G` (the largest accepted value with
that suffix). -/
theorem parse_humanreadable_no_wrap_witness :
    parse_humanreadable "17179869184G".toList = none ∧
    parse_humanreadable "18446744073709551616".toList = none ∧
    (∀ r, parse_humanreadable "17179869183G".toList = some r → r = 17179869183 * 2 ^ 30) :=
  ⟨(parse_humanreadable_no_wrap "17179869184".toList "G".toList 30 (by decide) (by decide)).1
      (by decide),
   (parse_humanreadable_no_wrap "18446744073709551616".toList [] 0 (by decide) (by decide)).1
      (by decide),
   (parse_humanreadable_no_wrap "17179869183".toList "G".toList 30 (by decide) (by decide)).2⟩

/-! ## Startup Discovery: claims C4, C8, C10 -/

/-- Claim C4 is violated by the code: the scan compares `mnt_fsname`, the device or source
name of the entry, with `hugetlbfs`, and never reads `mnt_type`. An entry of type
`hugetlbfs` at the configured directory with options `rw,pagesize=2M,relatime` and source
name `none` is passed over, nothing is resolved and the process exits; the same entry with
source name `hugetlbfs` resolves 2097152. -/
theorem scan_matches_source_name_not_type :
    scan_mounts "/mnt/huge".toList
      [⟨"none".toList, "/mnt/huge".toList, "hugetlbfs".toList,
        "rw,pagesize=2M,relatime".toList, 0, 0⟩] UINTMAX_MAX = UINTMAX_MAX ∧
    sysconf_patch_initialize (startup_with "/mnt/huge".toList
      [⟨"none".toList, "/mnt/huge".toList, "hugetlbfs".toList,
        "rw,pagesize=2M,relatime".toList, 0, 0⟩]) = .exited 1 ∧
    sysconf_patch_initialize (startup_with "/mnt/huge".toList
      [⟨"hugetlbfs".toList, "/mnt/huge".toList, "hugetlbfs".toList,
        "rw,pagesize=2M,relatime".toList, 0, 0⟩]) = .returned ⟨2097152, false⟩ := by
  decide

/-- Claim C10: in the options of the entry being scanned, options that are not `pagesize=`
options and `pagesize=` options whose value fails to parse are passed over, and the scan
stops at the first `pagesize=` option whose value parses: the resolved size is that value,
whatever options follow it and whatever `hugepage_pagesize` held before. -/
theorem scan_options_first_parseable (skipped : List CString) (value tail : CString)
    (n hugepage_pagesize : Nat)
    (hskip : ∀ t ∈ skipped, is_skipped t)
    (hv : ∀ c ∈ value, c ≠ ',')
    (hparse : parse_humanreadable value = some n)
    (htail : tail = [] ∨ ∃ r, tail = ',' :: r) :
    scan_options (join_options skipped ++ ("pagesize=".toList ++ value) ++ tail)
      hugepage_pagesize = n := by
  unfold scan_options
  apply scan_options_loop_first skipped value tail n hskip hv hparse htail
  have := join_options_length skipped
  simp only [List.length_append]
  omega

/-- Claim C10 at `rw,pagesize=bogus,pagesize=2M,pagesize=1G`, which resolves 2097152. -/
theorem scan_options_first_parseable_witness :
    scan_options "rw,pagesize=bogus,pagesize=2M,pagesize=1G".toList UINTMAX_MAX = 2097152 :=
  scan_options_first_parseable ["rw".toList, "pagesize=bogus".toList] "2M".toList
    ",pagesize=1G".toList 2097152 UINTMAX_MAX (by decide) (by decide) (by decide)
    (Or.inr ⟨"pagesize=1G".toList, rfl⟩)

/-! ## Meminfo Rewriter: claims C1, C2 -/

/-- Claim C1 is violated by the code: `fgets` keeps the newline of the line it read and the
format of line 177 adds another one, so every copied line is followed by an empty line. For
the fixture the rewritten file is not the fixture with its `Hugepagesize:` line replaced;
the same text is what `rewrite_meminfo` writes into the temporary file. -/
theorem rewrite_meminfo_adds_blank_lines :
    rewritten_meminfo 2097152 meminfo_fixture =
      ("MemTotal:       16384 kB\n\nHugepagesize:   2048 kB\n" ++
        "DirectMap4k:      1024 kB\n\n").toList ∧
    rewritten_meminfo 2097152 meminfo_fixture ≠
      ("MemTotal:       16384 kB\nHugepagesize:   2048 kB\n" ++
        "DirectMap4k:      1024 kB\n").toList ∧
    rewrite_meminfo recorder 2097152 [] =
      (some "/tmp/.rewritten-meminfoq3Zw0T".toList,
        [Call.malloc 4096,
         Call.mkstemp "/tmp/.rewritten-meminfoXXXXXX".toList,
         Call.fopen "/proc/meminfo".toList "r".toList,
         Call.fopen "/tmp/.rewritten-meminfoq3Zw0T".toList "w".toList,
         Call.read_all "/proc/meminfo".toList,
         Call.fputs "/tmp/.rewritten-meminfoq3Zw0T".toList
           ("MemTotal:       16384 kB\n\nHugepagesize:   2048 kB\n" ++
             "DirectMap4k:      1024 kB\n\n").toList,
         Call.fclose "/proc/meminfo".toList,
         Call.fclose "/tmp/.rewritten-meminfoq3Zw0T".toList]) := by
  decide

set_option maxRecDepth 100000 in
/-- Claim C2 fails for a line longer than one `fgets` read: of a line that begins with
`Hugepagesize:` and is 264 bytes long, only the first 255 bytes are replaced; the remaining
9 bytes are copied after the replacement line. -/
theorem rewrite_meminfo_long_line_counterexample :
    rewritten_meminfo 2097152 ("Hugepagesize:".toList ++ List.replicate 250 'x' ++ ['\n']) =
      "Hugepagesize:   2048 kB\nxxxxxxxx\n\n".toList ∧
    rewritten_meminfo 2097152 ("Hugepagesize:".toList ++ List.replicate 250 'x' ++ ['\n']) ≠
      "Hugepagesize:   2048 kB\n".toList := by
  decide

/-- Claim C2, amended: for every meminfo content and every 64-bit size `S`, a line that
begins with `Hugepagesize:` and is at most 255 bytes long, its newline included (or that
ends the file without one), is replaced by exactly the line `Hugepagesize:   <S/1024> kB`
with one newline, between what is written for the lines before it and for the lines after
it. -/
theorem rewrite_meminfo_replaces_hugepagesize (S : Nat) (pre body nl post : List Char)
    (hS : S < 2 ^ 64)
    (hpre : pre = [] ∨ pre.getLast? = some '\n')
    (htok : "Hugepagesize:".toList <+: body)
    (hbody : ∀ c ∈ body, c ≠ '\n')
    (hterm : nl = ['\n'] ∨ (nl = [] ∧ post = []))
    (hlen : (body ++ nl).length ≤ 255) :
    rewritten_meminfo S (pre ++ (body ++ nl) ++ post) =
      rewritten_meminfo S pre
        ++ ("Hugepagesize:   ".toList ++ Nat.toDigits 10 (S / 1024) ++ " kB\n".toList)
        ++ rewritten_meminfo S post := by
  obtain ⟨b2, rfl⟩ := htok
  have hread : fgets_read 255 ("Hugepagesize:".toList ++ b2 ++ nl ++ post)
      = ("Hugepagesize:".toList ++ b2 ++ nl, post) := by
    rcases hterm with rfl | ⟨rfl, rfl⟩
    · have := fgets_read_line ("Hugepagesize:".toList ++ b2) post hbody 255 (by
        simp only [List.length_append, List.length_singleton] at hlen ⊢; omega)
      simpa using this
    · have := fgets_read_eof ("Hugepagesize:".toList ++ b2) hbody 255 (by
        simpa using hlen)
      simpa using this
  have hstep : rewritten_meminfo S ("Hugepagesize:".toList ++ b2 ++ nl ++ post)
      = rewrite_line S (fgets_read 255 ("Hugepagesize:".toList ++ b2 ++ nl ++ post)).1
        ++ rewritten_meminfo S (fgets_read 255 ("Hugepagesize:".toList ++ b2 ++ nl ++ post)).2 :=
    rewritten_meminfo_cons S 'H' ("ugepagesize:".toList ++ b2 ++ nl ++ post)
  have hline : rewrite_line S ("Hugepagesize:".toList ++ b2 ++ nl)
      = "Hugepagesize:   ".toList ++ Nat.toDigits 10 (S / 1024) ++ " kB\n".toList := by
    rw [List.append_assoc]
    exact rewrite_line_hugepagesize S hS (b2 ++ nl)
  rw [List.append_assoc pre, rewritten_meminfo_append S _ pre.length pre (le_refl _) hpre,
    hstep, hread, hline]
  simp only [List.append_assoc]

/-- Claim C2, amended, at the fixture with `S = 2097152`: the line
`Hugepagesize:       2048 kB` becomes `Hugepagesize:   2048 kB`. -/
theorem rewrite_meminfo_replaces_hugepagesize_witness :
    rewritten_meminfo 2097152
        ("MemTotal:       16384 kB\n".toList
          ++ ("Hugepagesize:       2048 kB".toList ++ "\n".toList)
          ++ "DirectMap4k:      1024 kB\n".toList) =
      rewritten_meminfo 2097152 "MemTotal:       16384 kB\n".toList
        ++ "Hugepagesize:   2048 kB\n".toList
        ++ rewritten_meminfo 2097152 "DirectMap4k:      1024 kB\n".toList :=
  rewrite_meminfo_replaces_hugepagesize 2097152 "MemTotal:       16384 kB\n".toList
    "Hugepagesize:       2048 kB".toList "\n".toList "DirectMap4k:      1024 kB\n".toList
    (by decide) (by decide) (by decide) (by decide) (by decide) (by decide)

/-! ## Interception hooks: claims C3, C9 -/

/-- Claim C3 fails for sizes from `2 ^ 63` on: the hook returns `(long) determined_pagesize`.
The parser returns `2 ^ 63` for `8589934592G`, the constructor stores it, and the hook then
answers `-2 ^ 63` to `_SC_PAGESIZE`. -/
theorem sysconf_hook_wraps_counterexample :
    parse_humanreadable "8589934592G".toList = some (2 ^ 63) ∧
    sysconf_patch_initialize (startup_with "/mnt/huge".toList
      [⟨"hugetlbfs".toList, "/mnt/huge".toList, "hugetlbfs".toList,
        "rw,relatime,pagesize=8589934592G".toList, 0, 0⟩]) = .returned ⟨2 ^ 63, false⟩ ∧
    sysconf recorder ⟨2 ^ 63, false⟩ _SC_PAGESIZE [] = (-(2 ^ 63), []) ∧
    (sysconf recorder ⟨2 ^ 63, false⟩ _SC_PAGESIZE []).1 ≠ 2 ^ 63 := by
  decide

/-- Claim C3, amended: for `_SC_PAGESIZE` and `_SC_PAGE_SIZE` the hook returns the stored
size `S` without calling the real `sysconf` when `S < 2 ^ 63`, and `S - 2 ^ 64` when
`2 ^ 63 ≤ S < 2 ^ 64`; for every other identifier it returns exactly what the real
`sysconf` returns, whatever `S` is. -/
theorem sysconf_hook_page_size {W F : Type} (libc : Libc W F) (g : Globals) (name : Int)
    (w : W) :
    ((name = _SC_PAGESIZE ∨ name = _SC_PAGE_SIZE) → g.determined_pagesize < 2 ^ 63 →
      sysconf libc g name w = ((g.determined_pagesize : Int), w)) ∧
    ((name = _SC_PAGESIZE ∨ name = _SC_PAGE_SIZE) → 2 ^ 63 ≤ g.determined_pagesize →
      g.determined_pagesize < 2 ^ 64 →
      sysconf libc g name w = ((g.determined_pagesize : Int) - 2 ^ 64, w)) ∧
    (name ≠ _SC_PAGESIZE → name ≠ _SC_PAGE_SIZE →
      sysconf libc g name w = libc.orig_sysconf name w) := by
  refine ⟨?_, ?_, ?_⟩
  · intro hn hS
    have hmod : g.determined_pagesize % 2 ^ 64 = g.determined_pagesize :=
      Nat.mod_eq_of_lt (by omega)
    simp only [sysconf, if_pos hn, to_long, hmod, if_pos hS]
  · intro hn hS hlt
    have hmod : g.determined_pagesize % 2 ^ 64 = g.determined_pagesize :=
      Nat.mod_eq_of_lt hlt
    have hge : ¬ g.determined_pagesize < 2 ^ 63 := by omega
    simp only [sysconf, if_pos hn, to_long, hmod, if_neg hge]
  · intro h1 h2
    have hn : ¬ (name = _SC_PAGESIZE ∨ name = _SC_PAGE_SIZE) := by
      rintro (h | h)
      · exact h1 h
      · exact h2 h
    simp only [sysconf, if_neg hn]

/-- Claim C3, amended, at `S = 2097152`: both page-size identifiers give 2097152 and make no
call, the identifier 84 is answered by the real `sysconf`; and at `S = 2 ^ 63`. -/
theorem sysconf_hook_page_size_witness :
    sysconf recorder ⟨2097152, false⟩ _SC_PAGESIZE [] = (2097152, []) ∧
    sysconf recorder ⟨2097152, false⟩ _SC_PAGE_SIZE [] = (2097152, []) ∧
    sysconf recorder ⟨2 ^ 63, false⟩ _SC_PAGESIZE [] = (2 ^ 63 - 2 ^ 64, []) ∧
    sysconf recorder ⟨2097152, false⟩ 84 [] = (8, [Call.sysconf 84]) :=
  ⟨(sysconf_hook_page_size recorder ⟨2097152, false⟩ _SC_PAGESIZE []).1
      (Or.inl rfl) (by decide),
   (sysconf_hook_page_size recorder ⟨2097152, false⟩ _SC_PAGE_SIZE []).1
      (Or.inr rfl) (by decide),
   (sysconf_hook_page_size recorder ⟨2 ^ 63, false⟩ _SC_PAGESIZE []).2.1
      (Or.inl rfl) (by decide) (by decide),
   (sysconf_hook_page_size recorder ⟨2097152, false⟩ 84 []).2.2 (by decide) (by decide)⟩

/-- Claim C9: for every path other than `/proc/meminfo` and every mode, `fopen64` and
`fopen` are the real `fopen` called once with the same path and mode: the same result and
the same world afterwards, hence no temporary file, no diagnostic and no other call; and
the two entry points agree on every input. -/
theorem fopen_passthrough {W F : Type} (libc : Libc W F) (g : Globals) (path mode : CString)
    (w : W) (hpath : path ≠ "/proc/meminfo".toList) :
    fopen64 libc g path mode w = libc.orig_fopen path mode w ∧
    fopen libc g path mode w = libc.orig_fopen path mode w ∧
    (∀ (p m : CString) (v : W), fopen libc g p m v = fopen64 libc g p m v) := by
  have hne : strcmp_eq path "/proc/meminfo".toList = false := beq_eq_false_iff_ne.mpr hpath
  have h64 : fopen64 libc g path mode w = libc.orig_fopen path mode w := by
    simp only [fopen64, hne, Bool.false_eq_true, if_false]
  exact ⟨h64, h64, fun _ _ _ => rfl⟩

/-- Claim C9 at `/etc/hostname`: the only recorded call is the real `fopen` of that path. -/
theorem fopen_passthrough_witness :
    fopen64 recorder ⟨2097152, false⟩ "/etc/hostname".toList "r".toList [] =
      (some "/etc/hostname".toList, [Call.fopen "/etc/hostname".toList "r".toList]) ∧
    fopen recorder ⟨2097152, false⟩ "/etc/hostname".toList "r".toList [] =
      (some "/etc/hostname".toList, [Call.fopen "/etc/hostname".toList "r".toList]) :=
  ⟨(fopen_passthrough recorder ⟨2097152, false⟩ "/etc/hostname".toList "r".toList []
      (by decide)).1,
   (fopen_passthrough recorder ⟨2097152, false⟩ "/etc/hostname".toList "r".toList []
      (by decide)).2.1⟩

end HugepagesPreload
